import Mathlib

/-!
# Verification of the RAG pipeline (chunking, embedding, search, ingestion)

Shallow embedding of the repository's retrieval-augmented-generation core:

* `lib/rag-utils/chunking.ts` — a `RecursiveCharacterTextSplitter` from
  `@langchain/textsplitters` configured with `chunkSize = 150`,
  `chunkOverlap = 20`, `separators = [" "]`, applied to the trimmed input.
* `lib/rag-utils/embeddings.ts` — `generateEmbedding` / `generateEmbeddings`,
  which replace newline characters by spaces before calling the external
  embedding service.
* `lib/rag-utils/search.ts` — `searchDocuments`, a SQL query computing
  `similarity = 1 - cosineDistance(embedding, queryEmbedding)`, filtering with
  `similarity > threshold` (strict), ordering by `similarity` descending with
  no secondary sort key, and truncating to `limit` rows.
* `app/upload/actions.ts` — `processPdfFile`, the ingestion pipeline.
* `app/api/(rag)/rag/route.ts` — the `searchKnoledgeBase` chat tool.

Texts are modelled as `List Char` (JavaScript string = sequence of code
units; all inputs of interest here are plain characters).  Embedding vectors
are `List Rat`.  External effects (the PDF parser, the embedding service, the
database insert) are parameters of the embedded functions; a fallible call is
an `Except Unit` value.  The SQL `ORDER BY … DESC` with no secondary key does
not determine the relative order of equal keys, so the database query is
modelled as a relation: `validOrderByLimit` accepts exactly the sequences
that are a `LIMIT`-prefix of some descending-sorted arrangement of the
filtered rows.
-/

namespace Rag

/-! ## JavaScript string primitives -/

/-- Whitespace recognised by JavaScript's `String.prototype.trim`
(the characters relevant to this code base). -/
def isJsWhitespace (c : Char) : Bool :=
  c = ' ' || c = '\t' || c = '\n' || c = '\r' ||
  c = '\x0b' || c = '\x0c' || c = ' ' || c = '﻿'

/-- JavaScript `text.trim()`: drop leading and trailing whitespace. -/
def trimChars (l : List Char) : List Char :=
  ((l.dropWhile isJsWhitespace).reverse.dropWhile isJsWhitespace).reverse

/-- JavaScript `text.replace(/\n/g, " ")`: every newline character becomes a
single space (used by `generateEmbedding` / `generateEmbeddings`). -/
def replaceNewlines (l : List Char) : List Char :=
  l.map (fun c => if c = '\n' then ' ' else c)

/-- Worker for JavaScript `text.split(new RegExp("(?=" + sep + ")"))` — the
`keepSeparator` lookahead split of `TextSplitter.splitOnSeparator`: the text
is cut immediately *before* every position (other than position 0) at which
`sep` matches, so each separator stays attached to the front of the following
piece and no character is lost.  `acc` holds the (reversed) current piece;
`acc = []` exactly at position 0, where a zero-width match produces no cut
(ECMAScript `split` never emits a leading empty piece for a zero-width
match).  Structural recursion over `fuel`, a bound on the number of
characters still to be consumed: every step consumes exactly one character,
so `fuel = text.length` (as supplied by `splitKeep`) is never exhausted and
the `fuel = 0` fallback is unreachable. -/
def splitKeepAux (sep : List Char) : Nat → List Char → List Char → List (List Char)
  | _, acc, [] => [acc.reverse]
  | 0, acc, text => [acc.reverse ++ text]
  | fuel + 1, acc, c :: rest =>
    if sep.isPrefixOf (c :: rest) && !acc.isEmpty then
      acc.reverse :: splitKeepAux sep fuel [c] rest
    else
      splitKeepAux sep fuel (c :: acc) rest

/-- JavaScript `text.split(new RegExp("(?=" + sep + ")"))` for a non-empty
separator. -/
def splitKeep (sep : List Char) (text : List Char) : List (List Char) :=
  splitKeepAux sep text.length [] text

/-- `TextSplitter.splitOnSeparator(text, separator)` as configured by this
program: `chunking.ts` does not set `keepSeparator`, so the library default
`keepSeparator = true` applies.  A truthy separator therefore splits with the
lookahead regex `(?=sep)` (separators kept attached to the following piece);
an empty or `undefined` separator splits into single characters (the falsy
check `if (separator)`); empty pieces are filtered out. -/
def splitOnSeparator (sepOpt : Option (List Char)) (text : List Char) :
    List (List Char) :=
  (match sepOpt with
   | some (s0 :: srest) => splitKeep (s0 :: srest) text
   | some [] => text.map (fun c => [c])
   | none => text.map (fun c => [c])).filter (· ≠ [])

/-- JavaScript `Array.prototype.join(sep)`. -/
def joinWith (sep : List Char) : List (List Char) → List Char
  | [] => []
  | [w] => w
  | w :: ws => w ++ sep ++ joinWith sep ws

/-! ## `RecursiveCharacterTextSplitter` (from `@langchain/textsplitters`)

The splitter used by `lib/rag-utils/chunking.ts`.  `TextSplitter.joinDocs`
joins the accumulated pieces and trims the result, dropping it when empty;
`TextSplitter.mergeSplits` packs pieces into windows of at most `chunkSize`
characters, popping from the front down to `chunkOverlap` characters when a
window overflows; `RecursiveCharacterTextSplitter._splitText` picks the first
separator occurring in the text, splits, recursively re-splits oversized
pieces with the remaining separators, and merges the rest.  Because
`chunking.ts` does not override `keepSeparator`, the library default
`keepSeparator = true` is in force throughout: splitting keeps each separator
attached to the following piece (`splitOnSeparator` above), and merging joins
with `_separator = ""` (`const _separator = this.keepSeparator ? "" :
separator`), even when the separator list is exhausted — so an over-long
space-free token is hard-split into character windows and `_splitText` never
throws. -/

/-- `TextSplitter.joinDocs(docs, separator)`:
`docs.join(separator).trim()`, `null` when empty. -/
def joinDocs (docs : List (List Char)) (sep : List Char) : Option (List Char) :=
  let text := trimChars (joinWith sep docs)
  if text = [] then none else some text

/-- The `while` loop inside `TextSplitter.mergeSplits` that pops pieces from
the front of `currentDoc` (invariant: `total` is the summed length of the
pieces). `dLen` is the length of the piece about to be appended. -/
def popWhile (chunkSize chunkOverlap sepLen dLen : Nat) :
    Nat → List (List Char) → Nat × List (List Char)
  | total, [] => (total, [])
  | total, h :: t =>
    if chunkOverlap < total ∨
        (chunkSize < total + dLen + (h :: t).length * sepLen ∧ 0 < total) then
      popWhile chunkSize chunkOverlap sepLen dLen (total - h.length) t
    else
      (total, h :: t)

/-- The `for` loop of `TextSplitter.mergeSplits`: `docs` is the output
accumulator, `total` the summed length of `currentDoc`. -/
def mergeLoop (chunkSize chunkOverlap : Nat) (sep : List Char) :
    List (List Char) → List (List Char) → Nat → List (List Char) → List (List Char)
  | [], docs, _total, currentDoc => docs ++ (joinDocs currentDoc sep).toList
  | d :: rest, docs, total, currentDoc =>
    if chunkSize < total + d.length + currentDoc.length * sep.length then
      if currentDoc = [] then
        mergeLoop chunkSize chunkOverlap sep rest docs (total + d.length)
          (currentDoc ++ [d])
      else
        let docs2 := docs ++ (joinDocs currentDoc sep).toList
        let popped := popWhile chunkSize chunkOverlap sep.length d.length total currentDoc
        mergeLoop chunkSize chunkOverlap sep rest docs2 (popped.1 + d.length)
          (popped.2 ++ [d])
    else
      mergeLoop chunkSize chunkOverlap sep rest docs (total + d.length)
        (currentDoc ++ [d])

/-- `TextSplitter.mergeSplits(splits, separator)`. -/
def mergeSplits (chunkSize chunkOverlap : Nat) (sep : List Char)
    (splits : List (List Char)) : List (List Char) :=
  mergeLoop chunkSize chunkOverlap sep splits [] 0 []

/-- JavaScript `text.includes(s)`: `s` occurs contiguously in `text`. -/
def containsSeq (s : List Char) : List Char → Bool
  | [] => s.isEmpty
  | c :: rest => s.isPrefixOf (c :: rest) || containsSeq s rest

/-- The separator-selection loop at the top of
`RecursiveCharacterTextSplitter._splitText`: the first empty separator is
taken as-is (`newSeparators` stays `undefined`), otherwise the first
separator occurring in the text is taken together with the remaining list. -/
def findSep (text : List Char) : List (List Char) →
    Option (List Char × Option (List (List Char)))
  | [] => none
  | s :: rest =>
    if s = [] then some ([], none)
    else if containsSeq s text then some (s, some rest)
    else findSep text rest

/-- The body of `_splitText`'s `for (const s of splits)` loop, after the
recursive sub-splits have been computed: `Sum.inl` is a piece shorter than
`chunkSize` (a "good split"), `Sum.inr` the chunk list obtained for an
oversized piece.  `good` accumulates pending good splits; merging always
joins with `_separator = ""` because `keepSeparator = true`. -/
def assemble (chunkSize chunkOverlap : Nat) :
    List (List Char ⊕ List (List Char)) → List (List Char) → List (List Char)
  | [], good =>
    if good = [] then [] else mergeSplits chunkSize chunkOverlap [] good
  | .inl s :: rest, good => assemble chunkSize chunkOverlap rest (good ++ [s])
  | .inr sub :: rest, good =>
    (if good = [] then [] else mergeSplits chunkSize chunkOverlap [] good) ++
      sub ++ assemble chunkSize chunkOverlap rest []

/-- `RecursiveCharacterTextSplitter._splitText(text, separators)`, by
structural recursion over `fuel`, a bound on the recursion depth.  The
recursive call always uses a strictly shorter separator list
(`findSep_some_newSeps`), so `fuel = seps.length + 1` (as supplied by
`splitTextRec`) is never exhausted and the `fuel = 0` fallback is
unreachable.  When the separator loop finds nothing (`findSep` returns
`none`), the `separator` variable keeps its initial value
`separators[separators.length - 1]` — `undefined` for an empty list, in
which case `splitOnSeparator` falls into its character-split branch. -/
def splitTextGo (chunkSize chunkOverlap : Nat) :
    Nat → List (List Char) → List Char → List (List Char)
  | 0, _, _ => []
  | fuel + 1, seps, text =>
    match findSep text seps with
    | some (sep, nsOpt) =>
      let splits := splitOnSeparator (some sep) text
      assemble chunkSize chunkOverlap
        (splits.map (fun s =>
          if s.length < chunkSize then Sum.inl s
          else Sum.inr (match nsOpt with
            | none => [s]
            | some ns => splitTextGo chunkSize chunkOverlap fuel ns s))) []
    | none =>
      let splits := splitOnSeparator seps.getLast? text
      assemble chunkSize chunkOverlap
        (splits.map (fun s =>
          if s.length < chunkSize then Sum.inl s else Sum.inr [s])) []

/-- `RecursiveCharacterTextSplitter._splitText(text, separators)`. -/
def splitTextRec (chunkSize chunkOverlap : Nat) (seps : List (List Char))
    (text : List Char) : List (List Char) :=
  splitTextGo chunkSize chunkOverlap (seps.length + 1) seps text

/-- The splitter configuration record (`new RecursiveCharacterTextSplitter({...})`). -/
structure SplitterConfig where
  chunkSize : Nat
  chunkOverlap : Nat
  separators : List (List Char)
deriving DecidableEq

/-- `textSplitter` from `lib/rag-utils/chunking.ts`:
`chunkSize: 150, chunkOverlap: 20, separators: [" "]`. -/
def textSplitter : SplitterConfig :=
  { chunkSize := 150, chunkOverlap := 20, separators := [[' ']] }

/-- `TextSplitter.splitText(text)` — entry point `_splitText(text, this.separators)`. -/
def splitText (cfg : SplitterConfig) (text : List Char) : List (List Char) :=
  splitTextRec cfg.chunkSize cfg.chunkOverlap cfg.separators text

/-- `chunkContent(content)` from `lib/rag-utils/chunking.ts`:
`textSplitter.splitText(content.trim())`. -/
def chunkContent (content : List Char) : List (List Char) :=
  splitText textSplitter (trimChars content)

/-- Spec-side reassembly for the totality property: concatenate all chunks
after removing the declared `chunkOverlap`-character overlap from the front
of every chunk after the first. -/
def reassembleChunks (chunkOverlap : Nat) : List (List Char) → List Char
  | [] => []
  | c :: cs => c ++ (cs.map (List.drop chunkOverlap)).flatten

/-! ## Embeddings (`lib/rag-utils/embeddings.ts`)

The external embedding service (`embed` / `embedMany` against
`text-embedding-3-small`) is a parameter; a failing call is `Except.error`. -/

/-- `generateEmbedding(text)`: replace newlines by spaces, then call the
embedding service on the result. -/
def generateEmbedding (svc : List Char → Except Unit (List Rat))
    (text : List Char) : Except Unit (List Rat) :=
  svc (replaceNewlines text)

/-- `generateEmbeddings(texts)`: replace newlines by spaces in every input,
then issue one batch call to the embedding service. -/
def generateEmbeddings (svcMany : List (List Char) → Except Unit (List (List Rat)))
    (texts : List (List Char)) : Except Unit (List (List Rat)) :=
  svcMany (texts.map replaceNewlines)

/-! ## Vector store and semantic search (`lib/rag-utils/search.ts`) -/

/-- A row of the `documents` table: serial `id`, `content`, nullable
`vector(1536)` column. -/
structure StoredRecord where
  id : Nat
  content : List Char
  embedding : Option (List Rat)
deriving DecidableEq

/-- A row returned by `searchDocuments`:
`{ id: documents.id, content: documents.content, similarity }`. -/
structure SearchResult where
  id : Nat
  content : List Char
  similarity : Rat
deriving DecidableEq

/-- `similarity = 1 - cosineDistance(documents.embedding, embedding)`.
The distance operator itself is evaluated by pgvector and is kept abstract
(`cosDist`). -/
def scoredRecords (cosDist : Option (List Rat) → List Rat → Rat)
    (store : List StoredRecord) (qe : List Rat) : List SearchResult :=
  store.map (fun r => ⟨r.id, r.content, 1 - cosDist r.embedding qe⟩)

/-- The `WHERE gt(similarity, threshold)` clause: strict inequality. -/
def aboveThreshold (threshold : Rat) (rs : List SearchResult) : List SearchResult :=
  rs.filter (fun r => threshold < r.similarity)

/-- `ORDER BY similarity DESC LIMIT limit` with no secondary sort key: `out`
is admissible iff it is the `limit`-prefix of some arrangement of `filtered`
that is sorted by descending similarity.  Concretely: right length, sorted
descending, a sub-multiset of `filtered`, and no excluded row scores above an
included one. -/
def validOrderByLimit (filtered : List SearchResult) (limit : Nat)
    (out : List SearchResult) : Prop :=
  out.length = Nat.min limit filtered.length ∧
  List.Chain' (fun a b => b.similarity ≤ a.similarity) out ∧
  (∀ r ∈ out, out.count r ≤ filtered.count r) ∧
  (∀ r ∈ filtered.diff out, ∀ o ∈ out, r.similarity ≤ o.similarity)

instance (filtered : List SearchResult) (limit : Nat) (out : List SearchResult) :
    Decidable (validOrderByLimit filtered limit out) := by
  unfold validOrderByLimit; infer_instance

/-- `searchDocuments(query, limit = 5, threshold = 0.5)`: embed the query
(single-text path, with newline replacement), score every row, keep rows with
`similarity > threshold`, order by descending similarity, truncate to
`limit`.  Holds of `result` iff `result` is an outcome the query can
produce. -/
def searchDocuments (svc : List Char → Except Unit (List Rat))
    (cosDist : Option (List Rat) → List Rat → Rat) (store : List StoredRecord)
    (query : List Char) (limit : Nat) (threshold : Rat)
    (result : Except Unit (List SearchResult)) : Prop :=
  match generateEmbedding svc query with
  | .error e => result = .error e
  | .ok qe => ∃ out, result = .ok out ∧
      validOrderByLimit (aboveThreshold threshold (scoredRecords cosDist store qe))
        limit out

/-! ## The `searchKnoledgeBase` chat tool (`app/api/(rag)/rag/route.ts`) -/

/-- What the tool's `execute` returns: a plain string, or the structured
`{ error, details }` object from the `catch` branch. -/
inductive ToolOutput where
  | text : List Char → ToolOutput
  | failure : List Char → ToolOutput
deriving DecidableEq

/-- `results.map((r, i) => `[${i + 1}] ${r.content}`).join("\n")`. -/
def formatResults (rs : List SearchResult) : List Char :=
  joinWith ['\n']
    (rs.enum.map (fun p => '[' :: (Nat.repr (p.1 + 1)).toList ++ ']' :: ' ' :: p.2.content))

/-- The branches of the tool's `execute` on the outcome of
`searchDocuments`. -/
def toolRespond (res : Except Unit (List SearchResult)) : ToolOutput :=
  match res with
  | .error _ => .failure "Failed to search the knowledge base".toList
  | .ok [] => .text "No relevant information found".toList
  | .ok rs => .text (formatResults rs)

/-- The tool `execute({ query })`: `searchDocuments(query, 3, 0.5)` with the
result formatted by the branches above.  Holds of `out` iff `out` is an
outcome the tool can produce for `query`. -/
def searchKnoledgeBase (svc : List Char → Except Unit (List Rat))
    (cosDist : Option (List Rat) → List Rat → Rat) (store : List StoredRecord)
    (query : List Char) (out : ToolOutput) : Prop :=
  ∃ res, searchDocuments svc cosDist store query 3 (1/2) res ∧ out = toolRespond res

/-! ## Ingestion (`app/upload/actions.ts`, `processPdfFile`) -/

/-- The structured value returned by `processPdfFile`:
`{ success, message? }` or `{ success, error? }`. -/
structure PdfActionResult where
  success : Bool
  message : Option (List Char) := none
  error : Option (List Char) := none
deriving DecidableEq

/-- `"Failed to process PDF"` — the generic `catch`-branch error. -/
def failedMsg : List Char := "Failed to process PDF".toList

/-- `"No text found in PDF"` — the empty-document error. -/
def noTextMsg : List Char := "No text found in PDF".toList

/-- `` `Created ${records.length} searchable chunks` ``. -/
def createdMsg (n : Nat) : List Char :=
  "Created ".toList ++ (Nat.repr n).toList ++ " searchable chunks".toList

/-- The bulk `db.insert(documents).values(records)`: ids are assigned
serially, the batch is appended in one statement. -/
def insertMany (store : List StoredRecord)
    (records : List (List Char × Option (List Rat))) : List StoredRecord :=
  store ++ records.enum.map (fun p => ⟨store.length + 1 + p.1, p.2.1, p.2.2⟩)

/-- `processPdfFile(formData)`.  `parse` is the outcome of
`PDFParse.getText()` (`Except.error` when the parser throws, `none` when
`data.text` is absent); `svcMany` is the embedding service used by
`generateEmbeddings`; `insertFails` says whether the single bulk insert
throws.  Returns the structured result together with the vector store after
the call — any thrown error lands in the `catch` branch, which returns
`{ success: false, error: "Failed to process PDF" }`. -/
def processPdfFile (parse : Except Unit (Option (List Char)))
    (svcMany : List (List Char) → Except Unit (List (List Rat)))
    (insertFails : Bool) (store : List StoredRecord) :
    PdfActionResult × List StoredRecord :=
  match parse with
  | .error _ => (⟨false, none, some failedMsg⟩, store)
  | .ok none => (⟨false, none, some noTextMsg⟩, store)
  | .ok (some text) =>
    if (trimChars text).length = 0 then (⟨false, none, some noTextMsg⟩, store)
    else
      let chunks := chunkContent text
      match generateEmbeddings svcMany chunks with
      | .error _ => (⟨false, none, some failedMsg⟩, store)
      | .ok embeddings =>
        let records := chunks.enum.map (fun p => (p.2, embeddings.get? p.1))
        if insertFails then (⟨false, none, some failedMsg⟩, store)
        else (⟨true, some (createdMsg records.length), none⟩,
          insertMany store records)

/-! ## Concrete fixtures used by witnesses and counterexamples -/

/-- An embedding service that always answers with the empty vector. -/
def svcEmpty : List Char → Except Unit (List Rat) := fun _ => .ok []

/-- A cosine-distance oracle that always answers `0` (so every similarity is
`1 - 0`). -/
def cosDistZero : Option (List Rat) → List Rat → Rat := fun _ _ => 0

/-- A two-row store. -/
def demoStore : List StoredRecord := [⟨1, ['a'], none⟩, ⟨2, ['b'], none⟩]

/-- Both rows of `demoStore`, scored `1` each, listed in descending-id
order. -/
def demoOut : List SearchResult := [⟨2, ['b'], 1⟩, ⟨1, ['a'], 1⟩]

/-- A parser outcome carrying the text `"hello"`. -/
def parseHello : Except Unit (Option (List Char)) := .ok (some "hello".toList)

/-- An embedding service whose batch call always fails. -/
def svcManyFail : List (List Char) → Except Unit (List (List Rat)) := fun _ => .error ()

/-- An embedding service whose batch call succeeds with empty vectors. -/
def svcManyEmpty : List (List Char) → Except Unit (List (List Rat)) :=
  fun ts => .ok (ts.map (fun _ => []))

/-- Fourteen ten-character words separated by single spaces (153 characters):
long enough to spill into a second chunk. -/
def longInput : List Char :=
  joinWith [' '] (List.replicate 14 (List.replicate 10 'a'))

/-! ## Helper lemmas -/

/-- The recursive call of `_splitText` always descends to a strictly shorter
separator list, so the depth fuel `seps.length + 1` used by `splitTextRec`
never runs out. -/
theorem findSep_some_newSeps {text : List Char} {seps : List (List Char)}
    {sep : List Char} {ns : List (List Char)}
    (h : findSep text seps = some (sep, some ns)) : ns.length < seps.length := by
  induction seps with
  | nil => simp [findSep] at h
  | cons s rest ih =>
    simp only [findSep] at h
    split at h
    · simp at h
    · split at h
      · obtain ⟨rfl, rfl⟩ := by simpa using h
        simp
      · have := ih h
        simp only [List.length_cons]
        omega

theorem searchDocuments_ok_elim {svc : List Char → Except Unit (List Rat)}
    {cosDist : Option (List Rat) → List Rat → Rat} {store : List StoredRecord}
    {query : List Char} {limit : Nat} {threshold : Rat} {out : List SearchResult}
    (h : searchDocuments svc cosDist store query limit threshold (.ok out)) :
    ∃ qe, generateEmbedding svc query = .ok qe ∧
      validOrderByLimit (aboveThreshold threshold (scoredRecords cosDist store qe))
        limit out := by
  unfold searchDocuments at h
  cases hqe : generateEmbedding svc query with
  | error e => rw [hqe] at h; exact absurd h (by simp)
  | ok qe =>
    rw [hqe] at h
    obtain ⟨o, ho, hv⟩ := h
    simp only [Except.ok.injEq] at ho
    subst ho
    exact ⟨qe, rfl, hv⟩

theorem validOrderByLimit_length_le {filtered : List SearchResult} {limit : Nat}
    {out : List SearchResult} (h : validOrderByLimit filtered limit out) :
    out.length ≤ limit := by
  rw [h.1]
  unfold Nat.min
  exact inf_le_left

theorem validOrderByLimit_mem {filtered : List SearchResult} {limit : Nat}
    {out : List SearchResult} (h : validOrderByLimit filtered limit out) :
    ∀ r ∈ out, r ∈ filtered := by
  intro r hr
  have hc := h.2.2.1 r hr
  have hp : 0 < out.count r := List.count_pos_iff.mpr hr
  exact List.count_pos_iff.mp (lt_of_lt_of_le hp hc)

theorem validOrderByLimit_of_nil {filtered : List SearchResult} {limit : Nat}
    {out : List SearchResult} (h : validOrderByLimit filtered limit out)
    (hf : filtered = []) : out = [] := by
  subst hf
  have h1 := h.1
  unfold Nat.min at h1
  rw [List.length_nil, Nat.min_zero] at h1
  exact List.length_eq_zero.mp h1

theorem mem_aboveThreshold {threshold : Rat} {rs : List SearchResult}
    {r : SearchResult} (h : r ∈ aboveThreshold threshold rs) :
    threshold < r.similarity := by
  simpa using (List.mem_filter.mp h).2

/-! ### Lemmas about the lookahead split -/

/-- The `keepSeparator` split is lossless: every cut is zero-width, so
concatenating the pieces restores the input. -/
theorem splitKeepAux_flatten (sep : List Char) :
    forall (text : List Char) (fuel : Nat) (acc : List Char), text.length <= fuel ->
      (splitKeepAux sep fuel acc text).flatten = acc.reverse ++ text := by
  intro text
  induction text with
  | nil =>
    intro fuel acc _
    cases fuel <;> simp [splitKeepAux]
  | cons c rest ih =>
    intro fuel acc hfuel
    match fuel with
    | 0 => simp at hfuel
    | f + 1 =>
      have hrest : rest.length <= f := by
        simp only [List.length_cons] at hfuel; omega
      simp only [splitKeepAux]
      split
      · simp [ih f [c] hrest]
      · simp [ih f (c :: acc) hrest]

theorem flatten_filter_ne_nil (l : List (List Char)) :
    (l.filter (· ≠ [])).flatten = l.flatten := by
  simp only [ne_eq, decide_not]
  induction l with
  | nil => rfl
  | cons w rest ih =>
    rw [List.filter_cons]
    split
    · simp [ih]
    · rename_i h
      have hw : w = [] := by simpa using h
      subst hw
      simpa using ih

/-- The configured split (`keepSeparator = true`, any non-empty separator)
is lossless after the empty-piece filter. -/
theorem splitOnSeparator_cons_flatten (s0 : Char) (srest : List Char)
    (text : List Char) :
    (splitOnSeparator (some (s0 :: srest)) text).flatten = text := by
  unfold splitOnSeparator splitKeep
  rw [flatten_filter_ne_nil]
  simpa using splitKeepAux_flatten (s0 :: srest) text text.length [] (le_refl _)

/-! ### Lemmas about `trimChars` -/

theorem dropWhile_head_false {p : Char → Bool} :
    ∀ {l t' : List Char} {h : Char}, l.dropWhile p = h :: t' → p h = false := by
  intro l
  induction l with
  | nil => intro t' h hd; simp at hd
  | cons a l ih =>
    intro t' h hd
    by_cases hp : p a
    · rw [List.dropWhile_cons_of_pos hp] at hd
      exact ih hd
    · rw [List.dropWhile_cons_of_neg hp] at hd
      cases hd
      simpa using hp

theorem mem_dropWhile_of_not {p : Char → Bool} {a : Char} {l : List Char}
    (hmem : a ∈ l) (ha : p a = false) : a ∈ l.dropWhile p := by
  have hsplit := List.takeWhile_append_dropWhile (p := p) (l := l)
  rw [← hsplit] at hmem
  rcases List.mem_append.mp hmem with h | h
  · have := List.mem_takeWhile_imp h
    rw [ha] at this
    exact absurd this (by simp)
  · exact h

theorem dropWhile_append_all {p : Char → Bool} {pre l : List Char}
    (h : ∀ c ∈ pre, p c = true) : (pre ++ l).dropWhile p = l.dropWhile p := by
  rw [List.dropWhile_append]
  have hpre : pre.dropWhile p = [] := List.dropWhile_eq_nil_iff.mpr h
  simp [hpre]

/-- When nonempty, the trimmed string starts with a non-whitespace
character. -/
theorem trimChars_head {l : List Char} (hne : trimChars l ≠ []) :
    ∃ h0 t0, trimChars l = h0 :: t0 ∧ isJsWhitespace h0 = false := by
  match ht : trimChars l with
  | [] => exact absurd ht hne
  | h0 :: t0 =>
    refine ⟨h0, t0, rfl, ?_⟩
    have hpre : trimChars l <+: l.dropWhile isJsWhitespace := by
      have hsfx : (l.dropWhile isJsWhitespace).reverse.dropWhile isJsWhitespace <:+
          (l.dropWhile isJsWhitespace).reverse := List.dropWhile_suffix _
      have : (trimChars l).reverse <:+ (l.dropWhile isJsWhitespace).reverse := by
        unfold trimChars
        simpa using hsfx
      exact List.reverse_suffix.mp this
    obtain ⟨r, hr⟩ := hpre
    rw [ht] at hr
    exact dropWhile_head_false hr.symm

theorem trimChars_ne_nil_of_mem {a : Char} {l : List Char}
    (hmem : a ∈ l) (ha : isJsWhitespace a = false) : trimChars l ≠ [] := by
  intro h
  unfold trimChars at h
  rw [List.reverse_eq_nil_iff] at h
  have hall := List.dropWhile_eq_nil_iff.mp h
  have h1 : a ∈ l.dropWhile isJsWhitespace := mem_dropWhile_of_not hmem ha
  have h2 := hall a (by simpa using h1)
  rw [ha] at h2
  exact absurd h2 (by simp)

theorem trimChars_append_ws {s pre post : List Char}
    (hpre : ∀ c ∈ pre, isJsWhitespace c = true)
    (hpost : ∀ c ∈ post, isJsWhitespace c = true) :
    trimChars (pre ++ s ++ post) = trimChars s := by
  unfold trimChars
  rw [List.append_assoc, dropWhile_append_all hpre, List.dropWhile_append]
  by_cases hs : (s.dropWhile isJsWhitespace).isEmpty
  · rw [if_pos hs]
    have h1 : post.dropWhile isJsWhitespace = [] :=
      List.dropWhile_eq_nil_iff.mpr hpost
    have h2 : s.dropWhile isJsWhitespace = [] := by
      cases h : s.dropWhile isJsWhitespace
      · rfl
      · rw [h] at hs; simp at hs
    rw [h1, h2]
  · rw [if_neg hs, List.reverse_append]
    rw [dropWhile_append_all (fun c hc => hpost c (List.mem_reverse.mp hc))]

/-! ### Lemmas about `mergeSplits`, `assemble` and `joinWith` -/

theorem mem_joinWith {a : Char} {sep : List Char} :
    ∀ {ws : List (List Char)} {w : List Char}, w ∈ ws → a ∈ w →
      a ∈ joinWith sep ws := by
  intro ws
  induction ws with
  | nil => simp
  | cons w0 rest ih =>
    intro w hw haw
    cases rest with
    | nil =>
      simp only [List.mem_singleton] at hw
      subst hw
      simpa [joinWith] using haw
    | cons w1 rest1 =>
      show a ∈ w0 ++ sep ++ joinWith sep (w1 :: rest1)
      rcases List.mem_cons.mp hw with rfl | hw'
      · simp [haw]
      · simp [ih hw' haw]

theorem joinWith_length_single (sep : Char) :
    ∀ {ws : List (List Char)}, ws ≠ [] →
      (joinWith [sep] ws).length = (ws.map List.length).sum + ws.length - 1 := by
  intro ws
  induction ws with
  | nil => intro h; exact absurd rfl h
  | cons w rest ih =>
    intro _
    cases rest with
    | nil => simp [joinWith]
    | cons w2 rest2 =>
      have h := ih (by simp)
      show (w ++ [sep] ++ joinWith [sep] (w2 :: rest2)).length = _
      simp only [List.length_append, List.length_cons, List.map_cons,
        List.sum_cons, List.length_nil] at h ⊢
      omega

theorem mergeLoop_no_overflow (chunkSize chunkOverlap : Nat) (sep : List Char) :
    ∀ (splits docs currentDoc : List (List Char)),
      (splits = [] ∨
        ((currentDoc.map List.length).sum + (splits.map List.length).sum +
          (currentDoc.length + splits.length - 1) * sep.length ≤ chunkSize)) →
      mergeLoop chunkSize chunkOverlap sep splits docs
        ((currentDoc.map List.length).sum) currentDoc =
        docs ++ (joinDocs (currentDoc ++ splits) sep).toList := by
  intro splits
  induction splits with
  | nil =>
    intro docs cur _
    simp [mergeLoop]
  | cons d rest ih =>
    intro docs cur hcond
    rcases hcond with h | hle
    · exact absurd h (by simp)
    · simp only [List.map_cons, List.sum_cons, List.length_cons] at hle
      have hmul : cur.length * sep.length ≤
          (cur.length + rest.length) * sep.length :=
        Nat.mul_le_mul_right _ (by omega)
      have hrw : cur.length + (rest.length + 1) - 1 = cur.length + rest.length := by
        omega
      rw [hrw] at hle
      have hnotlt : ¬ (chunkSize < (cur.map List.length).sum + d.length +
          cur.length * sep.length) := by omega
      show mergeLoop chunkSize chunkOverlap sep (d :: rest) docs
        ((cur.map List.length).sum) cur = _
      rw [mergeLoop, if_neg hnotlt]
      have hsum : ((cur ++ [d]).map List.length).sum =
          (cur.map List.length).sum + d.length := by simp
      rw [← hsum]
      rw [ih docs (cur ++ [d]) ?cond]
      case cond =>
        by_cases hrest : rest = []
        · exact Or.inl hrest
        · refine Or.inr ?_
          simp only [hsum, List.length_append, List.length_singleton]
          have hrw2 : cur.length + 1 + rest.length - 1 = cur.length + rest.length := by
            omega
          rw [hrw2]
          omega
      rw [List.append_assoc, List.singleton_append]

theorem joinWith_nil_eq_flatten :
    ∀ (ws : List (List Char)), joinWith [] ws = ws.flatten := by
  intro ws
  induction ws with
  | nil => rfl
  | cons w rest ih =>
    cases rest with
    | nil => simp [joinWith]
    | cons w2 rest2 =>
      show w ++ [] ++ joinWith [] (w2 :: rest2) = _
      simp [ih]

theorem assemble_all_inl (chunkSize chunkOverlap : Nat) :
    ∀ (ws good : List (List Char)),
      assemble chunkSize chunkOverlap (ws.map Sum.inl) good =
        if good ++ ws = [] then []
        else mergeSplits chunkSize chunkOverlap [] (good ++ ws) := by
  intro ws
  induction ws with
  | nil =>
    intro good
    simp [assemble]
  | cons w rest ih =>
    intro good
    simp only [List.map_cons, assemble]
    rw [ih (good ++ [w]), List.append_assoc, List.singleton_append]

theorem joinDocs_eq_some {docs : List (List Char)} {sep : List Char}
    (h : trimChars (joinWith sep docs) ≠ []) :
    joinDocs docs sep = some (trimChars (joinWith sep docs)) := by
  unfold joinDocs
  simp [h]

/-- Trimming is idempotent: a trimmed string starts and ends with
non-whitespace characters, so trimming it again changes nothing. -/
theorem trimChars_idem (l : List Char) : trimChars (trimChars l) = trimChars l := by
  cases hy : trimChars l with
  | nil => rfl
  | cons h0 t0 =>
    have hws0 : isJsWhitespace h0 = false := by
      obtain ⟨h0x, t0x, heq, hws⟩ := trimChars_head (l := l) (by rw [hy]; simp)
      rw [hy] at heq
      injection heq with e1 _
      rwa [e1]
    have hrev : (h0 :: t0).reverse =
        (l.dropWhile isJsWhitespace).reverse.dropWhile isJsWhitespace := by
      rw [← hy]
      unfold trimChars
      rw [List.reverse_reverse]
    unfold trimChars
    rw [List.dropWhile_cons_of_neg (by simp [hws0])]
    cases hrv : (h0 :: t0).reverse with
    | nil => exact absurd hrv (by simp)
    | cons hr tr =>
      have hwsr : isJsWhitespace hr = false :=
        dropWhile_head_false (hrev.symm.trans hrv)
      rw [List.dropWhile_cons_of_neg (by simp [hwsr]), ← hrv,
        List.reverse_reverse]

/-- The central evaluation lemma for the configured splitter: when the
(already trimmed) text fits in a single 150-character window and every
lookahead piece is shorter than 150 characters, `_splitText` with separators
`[" "]` returns exactly one chunk — the text itself (the `keepSeparator`
split is lossless and the final `joinDocs` trim is the identity on trimmed
text). -/
theorem splitText_single_window {t : List Char}
    (hne : t ≠ []) (htrim : trimChars t = t)
    (hpieces : ∀ p ∈ splitOnSeparator (some [' ']) t, p.length < 150)
    (hlen : t.length ≤ 150) :
    splitTextRec 150 20 [[' ']] t = [t] := by
  have hflat : (splitOnSeparator (some [' ']) t).flatten = t :=
    splitOnSeparator_cons_flatten ' ' [] t
  have hsne : splitOnSeparator (some [' ']) t ≠ [] := by
    intro h
    rw [h] at hflat
    exact hne hflat.symm
  have hsum : ((splitOnSeparator (some [' ']) t).map List.length).sum = t.length := by
    rw [← List.length_flatten, hflat]
  have htne : trimChars t ≠ [] := by rw [htrim]; exact hne
  have hjoin : joinWith [] (splitOnSeparator (some [' ']) t) = t := by
    rw [joinWith_nil_eq_flatten, hflat]
  have hmergecond : ((([] : List (List Char)).map List.length).sum +
      ((splitOnSeparator (some [' ']) t).map List.length).sum +
      (([] : List (List Char)).length + (splitOnSeparator (some [' ']) t).length - 1) *
        ([] : List Char).length ≤ 150) := by
    simp only [List.map_nil, List.sum_nil, List.length_nil, Nat.mul_zero, hsum]
    omega
  have hmerge := mergeLoop_no_overflow 150 20 [] (splitOnSeparator (some [' ']) t)
    [] [] (Or.inr hmergecond)
  simp only [List.nil_append, List.map_nil, List.sum_nil] at hmerge
  have hjd : joinDocs (splitOnSeparator (some [' ']) t) [] = some t := by
    rw [joinDocs_eq_some (by rw [hjoin]; exact htne), hjoin, htrim]
  have hcore : mergeSplits 150 20 [] (splitOnSeparator (some [' ']) t) = [t] := by
    show mergeLoop 150 20 [] (splitOnSeparator (some [' ']) t) [] 0 [] = [t]
    rw [hmerge, hjd]
    rfl
  unfold splitTextRec
  simp only [List.length_singleton]
  show splitTextGo 150 20 (1 + 1) [[' ']] t = [t]
  rw [splitTextGo]
  by_cases hsp : containsSeq [' '] t = true
  · rw [show findSep t [[' ']] = some ([' '], some []) from by simp [findSep, hsp]]
    simp only
    rw [List.map_congr_left (fun s hs => if_pos (hpieces s hs))]
    rw [assemble_all_inl, List.nil_append, if_neg hsne]
    exact hcore
  · rw [show findSep t [[' ']] = none from by simp [findSep, hsp]]
    simp only
    rw [show (List.getLast? [[' ']]) = some [' '] from rfl]
    rw [List.map_congr_left (fun s hs => if_pos (hpieces s hs))]
    rw [assemble_all_inl, List.nil_append, if_neg hsne]
    exact hcore

/-- Shape of every `processPdfFile` outcome: the generic failure, the
empty-document failure, or a success carrying the chunk count. -/
theorem processPdfFile_shape (parse : Except Unit (Option (List Char)))
    (svcMany : List (List Char) → Except Unit (List (List Rat)))
    (insertFails : Bool) (store : List StoredRecord) :
    (processPdfFile parse svcMany insertFails store).1 = ⟨false, none, some failedMsg⟩ ∨
    (processPdfFile parse svcMany insertFails store).1 = ⟨false, none, some noTextMsg⟩ ∨
    ((processPdfFile parse svcMany insertFails store).1.success = true ∧
      insertFails = false) := by
  unfold processPdfFile
  match parse with
  | .error e => left; rfl
  | .ok none => right; left; rfl
  | .ok (some text) =>
    simp only
    split
    · right; left; rfl
    · cases he : generateEmbeddings svcMany (chunkContent text) with
      | error e => simp [he]
      | ok embeddings =>
        cases insertFails with
        | true => simp [he]
        | false => right; right; exact ⟨by simp [he], rfl⟩

theorem demoOut_valid :
    validOrderByLimit
      (aboveThreshold (1/2) (scoredRecords cosDistZero demoStore [])) 5 demoOut := by
  norm_num [validOrderByLimit, aboveThreshold, scoredRecords, demoStore, demoOut,
    cosDistZero]

/-! ## The claims -/

/-- **C1.** For every query, limit, and threshold, `searchDocuments` never
returns a result whose similarity is ≤ the threshold (the `WHERE` clause is
the strict `gt(similarity, threshold)`), and every scored record strictly
above the threshold passes the filter (is eligible). -/
theorem retrieve_threshold_strict
    (svc : List Char → Except Unit (List Rat))
    (cosDist : Option (List Rat) → List Rat → Rat) (store : List StoredRecord)
    (query : List Char) (limit : Nat) (threshold : Rat) (out : List SearchResult)
    (h : searchDocuments svc cosDist store query limit threshold (.ok out)) :
    (∀ r ∈ out, threshold < r.similarity) ∧
    (∀ qe, ∀ r ∈ scoredRecords cosDist store qe, threshold < r.similarity →
      r ∈ aboveThreshold threshold (scoredRecords cosDist store qe)) := by
  constructor
  · intro r hr
    obtain ⟨qe, _, hv⟩ := searchDocuments_ok_elim h
    exact mem_aboveThreshold (validOrderByLimit_mem hv r hr)
  · intro qe r hr hgt
    exact List.mem_filter.mpr ⟨hr, by simpa using hgt⟩

theorem retrieve_threshold_strict_witness :
    (∀ r ∈ demoOut, (1:Rat)/2 < r.similarity) ∧
    (∀ qe, ∀ r ∈ scoredRecords cosDistZero demoStore qe, (1:Rat)/2 < r.similarity →
      r ∈ aboveThreshold (1/2) (scoredRecords cosDistZero demoStore qe)) :=
  retrieve_threshold_strict svcEmpty cosDistZero demoStore ['q'] 5 (1/2) demoOut
    ⟨demoOut, rfl, demoOut_valid⟩

/-- **C2 (counterexample).** The claim also asserts that results with equal
similarity appear in ascending insertion-id order.  The query orders by
`similarity` descending with no secondary key, so a sequence listing two
equally-similar rows in descending-id order is an admissible outcome of the
SQL query; the claimed tie order fails for it. -/
theorem retrieve_tie_order_counterexample :
    searchDocuments svcEmpty cosDistZero demoStore ['q'] 5 (1/2) (.ok demoOut) ∧
    ¬ List.Pairwise
        (fun a b : SearchResult => a.similarity = b.similarity → a.id < b.id)
        demoOut := by
  refine ⟨⟨demoOut, rfl, demoOut_valid⟩, fun hp => ?_⟩
  have h2 := (List.pairwise_cons.mp (show List.Pairwise _ (_ :: _) from hp)).1
    ⟨1, ['a'], 1⟩ (by simp [demoOut])
  simp [demoOut] at h2

/-- **C2 (amended).** For every result sequence `searchDocuments` can return,
results are ordered by descending similarity
(`results[i].similarity >= results[i+1].similarity` for adjacent pairs); the
relative order of results with equal similarity is not specified by the query
(no secondary sort key), so no tie-breaking order is guaranteed. -/
theorem retrieve_ranking_descending
    (svc : List Char → Except Unit (List Rat))
    (cosDist : Option (List Rat) → List Rat → Rat) (store : List StoredRecord)
    (query : List Char) (limit : Nat) (threshold : Rat) (out : List SearchResult)
    (h : searchDocuments svc cosDist store query limit threshold (.ok out)) :
    List.Chain' (fun a b => b.similarity ≤ a.similarity) out :=
  (searchDocuments_ok_elim h).choose_spec.2.2.1

theorem retrieve_ranking_descending_witness :
    List.Chain' (fun a b : SearchResult => b.similarity ≤ a.similarity) demoOut :=
  retrieve_ranking_descending svcEmpty cosDistZero demoStore ['q'] 5 (1/2) demoOut
    ⟨demoOut, rfl, demoOut_valid⟩

/-- **C5.** For every query and corpus state, `searchDocuments` with limit
`n` returns at most `n` results (`LIMIT n`), regardless of how many stored
records exceed the threshold. -/
theorem retrieve_limit_respected
    (svc : List Char → Except Unit (List Rat))
    (cosDist : Option (List Rat) → List Rat → Rat) (store : List StoredRecord)
    (query : List Char) (limit : Nat) (threshold : Rat) (out : List SearchResult)
    (h : searchDocuments svc cosDist store query limit threshold (.ok out)) :
    out.length ≤ limit := by
  obtain ⟨qe, _, hv⟩ := searchDocuments_ok_elim h
  exact validOrderByLimit_length_le hv

theorem retrieve_limit_respected_witness : demoOut.length ≤ 5 :=
  retrieve_limit_respected svcEmpty cosDistZero demoStore ['q'] 5 (1/2) demoOut
    ⟨demoOut, rfl, demoOut_valid⟩

/-- **C6.** Whenever the query embedding succeeds, `searchDocuments` against
an empty vector store returns the empty sequence (not an error), and more
generally it returns the empty sequence whenever no stored record scores
strictly above the threshold. -/
theorem retrieve_empty_corpus
    (svc : List Char → Except Unit (List Rat))
    (cosDist : Option (List Rat) → List Rat → Rat) (store : List StoredRecord)
    (query : List Char) (limit : Nat) (threshold : Rat)
    (res : Except Unit (List SearchResult)) (qe : List Rat)
    (hqe : generateEmbedding svc query = .ok qe)
    (h : searchDocuments svc cosDist store query limit threshold res) :
    (store = [] → res = .ok []) ∧
    ((∀ r ∈ scoredRecords cosDist store qe, r.similarity ≤ threshold) →
      res = .ok []) := by
  unfold searchDocuments at h
  rw [hqe] at h
  obtain ⟨out, rfl, hv⟩ := h
  constructor
  · rintro rfl
    rw [validOrderByLimit_of_nil hv rfl]
  · intro hall
    have hf : aboveThreshold threshold (scoredRecords cosDist store qe) = [] := by
      apply List.filter_eq_nil_iff.mpr
      intro r hr
      simpa using not_lt.mpr (hall r hr)
    rw [validOrderByLimit_of_nil hv hf]

theorem retrieve_empty_corpus_witness :
    (([] : List StoredRecord) = [] → (.ok [] : Except Unit (List SearchResult)) = .ok []) ∧
    ((∀ r ∈ scoredRecords cosDistZero [] [], r.similarity ≤ (1:Rat)/2) →
      (.ok [] : Except Unit (List SearchResult)) = .ok []) :=
  retrieve_empty_corpus svcEmpty cosDistZero [] ['q'] 5 (1/2) (.ok []) [] rfl
    ⟨[], rfl, by norm_num [validOrderByLimit, aboveThreshold, scoredRecords]⟩

/-- **C9.** Both embedding entry points submit exactly the
newline-replaced inputs to the embedding service: every `'\n'` becomes a
single `' '` (same position, same length, all other characters unchanged),
and no newline survives in any submitted string. -/
theorem embeddings_replace_newlines
    (svc : List Char → Except Unit (List Rat))
    (svcMany : List (List Char) → Except Unit (List (List Rat)))
    (text : List Char) (texts : List (List Char)) :
    generateEmbedding svc text = svc (replaceNewlines text) ∧
    generateEmbeddings svcMany texts = svcMany (texts.map replaceNewlines) ∧
    '\n' ∉ replaceNewlines text ∧
    (replaceNewlines text).length = text.length ∧
    (∀ (i : Nat) (c : Char), text[i]? = some c →
      (replaceNewlines text)[i]? = some (if c = '\n' then ' ' else c)) ∧
    (∀ t ∈ texts.map replaceNewlines, '\n' ∉ t) := by
  have hnomem : ∀ l : List Char, '\n' ∉ replaceNewlines l := by
    intro l hmem
    obtain ⟨c, _, hc⟩ := List.mem_map.mp hmem
    by_cases h : c = '\n' <;> simp [h] at hc
  refine ⟨rfl, rfl, hnomem text, by simp [replaceNewlines], ?_, ?_⟩
  · intro i c hc
    simp [replaceNewlines, List.getElem?_map, hc]
  · intro t ht
    obtain ⟨l, _, rfl⟩ := List.mem_map.mp ht
    exact hnomem l

theorem embeddings_replace_newlines_witness :
    generateEmbedding svcEmpty ['a', '\n'] = svcEmpty (replaceNewlines ['a', '\n']) ∧
    generateEmbeddings svcManyEmpty [['a', '\n']] =
      svcManyEmpty ([['a', '\n']].map replaceNewlines) ∧
    '\n' ∉ replaceNewlines ['a', '\n'] ∧
    (replaceNewlines ['a', '\n']).length = ['a', '\n'].length ∧
    (∀ (i : Nat) (c : Char), ['a', '\n'][i]? = some c →
      (replaceNewlines ['a', '\n'])[i]? = some (if c = '\n' then ' ' else c)) ∧
    (∀ t ∈ [['a', '\n']].map replaceNewlines, '\n' ∉ t) :=
  embeddings_replace_newlines svcEmpty svcManyEmpty ['a', '\n'] [['a', '\n']]

/-- **C3.** If the batch embedding step fails, `processPdfFile` inserts
nothing: the vector store is unchanged (the single bulk insert only happens
after `generateEmbeddings` returns successfully). -/
theorem ingestion_atomic_on_embedding_failure
    (parse : Except Unit (Option (List Char)))
    (svcMany : List (List Char) → Except Unit (List (List Rat)))
    (insertFails : Bool) (store : List StoredRecord)
    (hfail : ∀ ts, svcMany ts = .error ()) :
    (processPdfFile parse svcMany insertFails store).2 = store := by
  unfold processPdfFile
  match parse with
  | .error e => rfl
  | .ok none => rfl
  | .ok (some text) =>
    simp only
    split
    · rfl
    · simp [generateEmbeddings, hfail]

theorem ingestion_atomic_on_embedding_failure_witness :
    (processPdfFile parseHello svcManyFail false demoStore).2 = demoStore :=
  ingestion_atomic_on_embedding_failure parseHello svcManyFail false demoStore
    (fun _ => rfl)

/-- **C4 (counterexample).** An embedding-stage failure and a store-stage
failure (embedding succeeded, bulk insert threw) produce the *identical*
structured result `{ success: false, error: "Failed to process PDF" }`: the
caller cannot distinguish an `EmbeddingServiceError` from a `StoreError`. -/
theorem ingestion_error_kinds_counterexample :
    (processPdfFile parseHello svcManyFail false []).1 =
      (processPdfFile parseHello svcManyEmpty true []).1 ∧
    (processPdfFile parseHello svcManyFail false []).1 =
      ⟨false, none, some failedMsg⟩ := by
  exact ⟨rfl, rfl⟩

/-- **C4 (amended).** Every failing ingestion returns a structured result,
never a raw exception; the empty-document case is distinguishable by its
distinct error string `"No text found in PDF"`, but embedding-service
failures and store failures are both reported as the same generic
`"Failed to process PDF"` (and any insert failure yields `success = false`),
so those two kinds are not distinguishable by the caller. -/
theorem ingestion_structured_failures
    (parse : Except Unit (Option (List Char)))
    (svcMany : List (List Char) → Except Unit (List (List Rat)))
    (insertFails : Bool) (store : List StoredRecord) :
    ((processPdfFile parse svcMany insertFails store).1.success = false →
      ((processPdfFile parse svcMany insertFails store).1.error = some noTextMsg ∨
       (processPdfFile parse svcMany insertFails store).1.error = some failedMsg)) ∧
    (∀ text, parse = .ok (some text) → (trimChars text).length = 0 →
      (processPdfFile parse svcMany insertFails store).1 =
        ⟨false, none, some noTextMsg⟩) ∧
    ((∀ ts, svcMany ts = .error ()) →
      ∀ text, parse = .ok (some text) → (trimChars text).length ≠ 0 →
      (processPdfFile parse svcMany insertFails store).1 =
        ⟨false, none, some failedMsg⟩) ∧
    (insertFails = true →
      (processPdfFile parse svcMany insertFails store).1.success = false) := by
  refine ⟨?_, ?_, ?_, ?_⟩
  · intro hs
    rcases processPdfFile_shape parse svcMany insertFails store with h | h | ⟨h, _⟩
    · right; rw [h]
    · left; rw [h]
    · rw [hs] at h; exact absurd h (by simp)
  · rintro text rfl hlen
    unfold processPdfFile
    simp [hlen]
  · rintro hfail text rfl hlen
    unfold processPdfFile
    simp only [hlen, if_neg hlen]
    simp [generateEmbeddings, hfail]
  · rintro rfl
    rcases processPdfFile_shape parse svcMany true store with h | h | ⟨_, hins⟩
    · rw [h]
    · rw [h]
    · exact absurd hins (by simp)

theorem ingestion_structured_failures_witness :
    (((processPdfFile parseHello svcManyFail false []).1.success = false →
      ((processPdfFile parseHello svcManyFail false []).1.error = some noTextMsg ∨
       (processPdfFile parseHello svcManyFail false []).1.error = some failedMsg)) ∧
    (∀ text, parseHello = .ok (some text) → (trimChars text).length = 0 →
      (processPdfFile parseHello svcManyFail false []).1 =
        ⟨false, none, some noTextMsg⟩) ∧
    ((∀ ts, svcManyFail ts = .error ()) →
      ∀ text, parseHello = .ok (some text) → (trimChars text).length ≠ 0 →
      (processPdfFile parseHello svcManyFail false []).1 =
        ⟨false, none, some failedMsg⟩) ∧
    (false = true →
      (processPdfFile parseHello svcManyFail false []).1.success = false)) :=
  ingestion_structured_failures parseHello svcManyFail false []

/-- **C10.** The chat tool `searchKnoledgeBase` always calls
`searchDocuments` with the fixed limit `3` and threshold `0.5` (its input
schema only carries `query`, so no caller override exists), and when the
search returns zero results the tool answers with the fixed string
`"No relevant information found"` instead of an empty sequence; any list of
results it reports has at most 3 entries, all scoring strictly above
`0.5`. -/
theorem search_tool_fixed_parameters
    (svc : List Char → Except Unit (List Rat))
    (cosDist : Option (List Rat) → List Rat → Rat) (store : List StoredRecord)
    (query : List Char) (out : ToolOutput)
    (h : searchKnoledgeBase svc cosDist store query out) :
    ∃ res, searchDocuments svc cosDist store query 3 (1/2) res ∧
      out = toolRespond res ∧
      (res = .ok [] → out = .text "No relevant information found".toList) ∧
      (∀ rs, res = .ok rs → rs.length ≤ 3 ∧ ∀ r ∈ rs, 1/2 < r.similarity) := by
  obtain ⟨res, hres, rfl⟩ := h
  refine ⟨res, hres, rfl, ?_, ?_⟩
  · rintro rfl
    rfl
  · rintro rs rfl
    obtain ⟨qe, _, hv⟩ := searchDocuments_ok_elim hres
    exact ⟨validOrderByLimit_length_le hv,
      fun r hr => mem_aboveThreshold (validOrderByLimit_mem hv r hr)⟩

theorem search_tool_fixed_parameters_witness :
    ∃ res, searchDocuments svcEmpty cosDistZero [] ['q'] 3 (1/2) res ∧
      ToolOutput.text "No relevant information found".toList = toolRespond res ∧
      (res = .ok [] →
        ToolOutput.text "No relevant information found".toList =
          .text "No relevant information found".toList) ∧
      (∀ rs, res = .ok rs → rs.length ≤ 3 ∧ ∀ r ∈ rs, 1/2 < r.similarity) :=
  search_tool_fixed_parameters svcEmpty cosDistZero [] ['q']
    (.text "No relevant information found".toList)
    ⟨.ok [], ⟨[], rfl, by norm_num [validOrderByLimit, aboveThreshold, scoredRecords]⟩,
      rfl⟩

/-- **C7.** `chunkContent` first trims the input (leading/trailing
whitespace) and then splits it with the fixed configuration
`chunkSize = 150`, `chunkOverlap = 20`, `separators = [" "]` (word-boundary
splitting only); consequently surrounding whitespace never affects the
output. -/
theorem chunking_trim_and_config (s pre post : List Char)
    (hpre : ∀ c ∈ pre, isJsWhitespace c = true)
    (hpost : ∀ c ∈ post, isJsWhitespace c = true) :
    chunkContent s = splitTextRec 150 20 [[' ']] (trimChars s) ∧
    textSplitter.chunkSize = 150 ∧
    textSplitter.chunkOverlap = 20 ∧
    textSplitter.separators = [[' ']] ∧
    chunkContent (pre ++ s ++ post) = chunkContent s := by
  refine ⟨rfl, rfl, rfl, rfl, ?_⟩
  unfold chunkContent splitText
  rw [trimChars_append_ws hpre hpost]

theorem chunking_trim_and_config_witness :
    chunkContent "a b".toList = splitTextRec 150 20 [[' ']] (trimChars "a b".toList) ∧
    textSplitter.chunkSize = 150 ∧
    textSplitter.chunkOverlap = 20 ∧
    textSplitter.separators = [[' ']] ∧
    chunkContent ([' '] ++ "a b".toList ++ ['\n']) = chunkContent "a b".toList :=
  chunking_trim_and_config "a b".toList [' '] ['\n'] (by decide) (by decide)

set_option maxRecDepth 8000 in
/-- **C8 (counterexample).** For `longInput` — fourteen ten-character words
separated by single spaces, 153 characters — the splitter produces two
chunks: words 1–13 (142 characters) and, after the overlap pop leaves only
the last word of the first window (11 characters including its leading
space, which the `joinDocs` trim then removes), words 13–14 (21 characters).
The actual overlap shared by the two chunks is the 10-character word 13, so
removing the declared 20-character overlap from the second chunk drops 10
characters of genuine text: the concatenation has 143 characters and cannot
reproduce the 153-character trimmed input. -/
theorem chunking_totality_counterexample :
    chunkContent longInput =
      [joinWith [' '] (List.replicate 13 (List.replicate 10 'a')),
       joinWith [' '] (List.replicate 2 (List.replicate 10 'a'))] ∧
    reassembleChunks 20 (chunkContent longInput) ≠ trimChars longInput :=
  ⟨by decide, by decide⟩

/-- **C8 (amended).** Concatenating all chunks after removing the declared
overlaps reproduces the trimmed input text exactly whenever the trimmed
input fits in a single chunk window (trimmed length at most `chunkSize` and
every lookahead-split piece shorter than `chunkSize`): the output is then
the single chunk equal to the trimmed input, because the
`keepSeparator = true` split is lossless.  For multi-chunk outputs the
reassembly fails: the actual overlap shared by consecutive chunks is
word-boundary-based — the pieces popped back to at most `chunkOverlap`
characters, minus the leading separator removed by `joinDocs`'s trim — so
removing exactly `chunkOverlap` characters from each subsequent chunk drops
or duplicates text. -/
theorem chunking_totality_single_window (s : List Char)
    (hne : trimChars s ≠ [])
    (hpieces : ∀ p ∈ splitOnSeparator (some [' ']) (trimChars s), p.length < 150)
    (hlen : (trimChars s).length ≤ 150) :
    chunkContent s = [trimChars s] ∧
    reassembleChunks 20 (chunkContent s) = trimChars s := by
  have h1 : chunkContent s = [trimChars s] := by
    unfold chunkContent splitText
    exact splitText_single_window hne (trimChars_idem s) hpieces hlen
  refine ⟨h1, ?_⟩
  rw [h1]
  simp [reassembleChunks]

theorem chunking_totality_single_window_witness :
    (trimChars " hello  world ".toList ≠ [] ∧
      (∀ p ∈ splitOnSeparator (some [' ']) (trimChars " hello  world ".toList),
        p.length < 150) ∧
      (trimChars " hello  world ".toList).length ≤ 150) ∧
    (chunkContent " hello  world ".toList = [trimChars " hello  world ".toList] ∧
     reassembleChunks 20 (chunkContent " hello  world ".toList) =
       trimChars " hello  world ".toList) :=
  ⟨⟨by decide, by decide, by decide⟩,
    chunking_totality_single_window " hello  world ".toList
      (by decide) (by decide) (by decide)⟩

end Rag
